import Mathlib

set_option maxHeartbeats 1000000
set_option linter.unusedVariables false

/-!
Shallow embedding of `src/genome.py`: a circular genome annotated with
transposable elements (TEs), in the two realizations of the source file —
`ListGenome` over plain Python lists and `LinkedListGenome` over an arena of
slots linked through `index_next`.

Conventions of the embedding:
- Python exceptions (`IndexError`, `ValueError`, `UnboundLocalError`,
  `ZeroDivisionError`) make a call return `Option.none`; a successful call
  returns `some` of the Python return value together with the post state.
- The unbounded `while` loops of `LinkedListGenome.copy_te` are run with fuel
  `len(self.ID) + 1`, which suffices for every terminating execution from a
  well-formed state; fuel exhaustion (the source would loop forever) is also
  mapped to `none`.
- Python `list` is `List`, characters are `Char`, the TE counter and ids are
  `Nat`, positions and offsets (which can be negative) are `Int`.
-/

/-- Python list indexing `l[i]`: a negative index addresses from the end,
an out-of-range index raises `IndexError` (modelled as `none`). -/
def pyGet {α : Type} (l : List α) (i : Int) : Option α :=
  if 0 ≤ i then l[i.toNat]?
  else if (-i).toNat ≤ l.length then l[l.length - (-i).toNat]? else none

/-- The cut point of the Python slices `l[0:p]` / `l[p:]`: a nonnegative `p`
cuts at `p` (clamped by `take`/`drop` themselves), a negative `p` cuts at
`max 0 (length + p)`. -/
def pySliceIdx (n : Nat) (p : Int) : Nat :=
  if 0 ≤ p then p.toNat else n - (-p).toNat

/-- Python slice `l[0:p]`. -/
def pyTake {α : Type} (l : List α) (p : Int) : List α :=
  l.take (pySliceIdx l.length p)

/-- Python slice `l[p:]`. -/
def pyDrop {α : Type} (l : List α) (p : Int) : List α :=
  l.drop (pySliceIdx l.length p)

/-- Python `list.remove`: delete the first occurrence, raise `ValueError`
(modelled as `none`) when the element does not occur. -/
def removeFirst (l : List Nat) (x : Nat) : Option (List Nat) :=
  match l with
  | [] => none
  | a :: t => if a = x then some t else (removeFirst t x).map (a :: ·)

/-- The loop `for i in range(len(ID)): if ID[i] == te: lst[i] = "x"` shared by
both `disable_te` methods: flip the symbol to `'x'` at every index owned by
`te`. -/
def markX (lst : List Char) (ids : List Nat) (te : Nat) : List Char :=
  match lst, ids with
  | [], _ => []
  | c :: cs, [] => c :: cs
  | c :: cs, j :: js => (if j = te then 'x' else c) :: markX cs js te

/-- State of `ListGenome`: the symbol list `self.lst`, the owner list
`self.ID`, the active-id list `self.active_lst` and the id counter
`self.count`. -/
structure ListGenome where
  lst : List Char
  ID : List Nat
  active_lst : List Nat
  count : Nat
deriving DecidableEq

/-- Embeds `ListGenome.__init__(n)`. -/
def ListGenome.init (n : Nat) : ListGenome :=
  { lst := List.replicate n '-', ID := List.replicate n 0,
    active_lst := [], count := 0 }

/-- Embeds `ListGenome.disable_te`: flip every position owned by `te` to `'x'`, then
`self.active_lst.remove(te)` (which raises `ValueError` when `te` is not in
the active list). -/
def ListGenome.disable_te (g : ListGenome) (te : Nat) : Option ListGenome :=
  match removeFirst g.active_lst te with
  | none => none
  | some a => some { g with lst := markX g.lst g.ID te, active_lst := a }

/-- Body of `ListGenome.insert_te` after the `pos` normalization and with
`self.count` already incremented (so `g.count` is the id being issued):
collision check at `lst[pos]`, then splice of `length` new `'A'` positions
into both lockstep lists at the slice point `pos`. -/
def ListGenome.insertCore (g : ListGenome) (pos : Int) (length : Nat) :
    Option (Nat × ListGenome) :=
  match pyGet g.lst pos with
  | none => none
  | some c =>
    match (if c = 'A' then
             match pyGet g.ID pos with
             | none => none
             | some owner => ListGenome.disable_te g owner
           else some g) with
    | none => none
    | some g1 =>
      some (g.count, { g1 with
        lst := pyTake g1.lst pos ++ List.replicate length 'A' ++ pyDrop g1.lst pos,
        ID := pyTake g1.ID pos ++ List.replicate length g.count ++ pyDrop g1.ID pos,
        active_lst := g1.active_lst ++ [g.count] })

/-- Embeds `ListGenome.insert_te`: the source normalizes `pos` only when
`pos > len(self.lst)` (strictly), via Python `%` whose result for a positive
modulus is nonnegative — `Int.emod` agrees there. `pos % 0` raises
`ZeroDivisionError`. -/
def ListGenome.insert_te (g : ListGenome) (pos : Int) (length : Nat) :
    Option (Nat × ListGenome) :=
  if pos > (g.lst.length : Int) then
    if g.lst.length = 0 then none
    else ListGenome.insertCore { g with count := g.count + 1 }
      (pos % (g.lst.length : Int)) length
  else ListGenome.insertCore { g with count := g.count + 1 } pos length

/-- Embeds `ListGenome.copy_te`: scan `self.ID` for the first index owned by `te`
(`index_ID` stays unbound when there is none — `UnboundLocalError`, i.e.
`none`), return Python `None` when that position shows `'x'`, otherwise count
all positions owned by `te` and delegate to `insert_te(index_ID + offset)`.
The Python return value `int | None` is the first component. -/
def ListGenome.copy_te (g : ListGenome) (te : Nat) (offset : Int) :
    Option (Option Nat × ListGenome) :=
  match g.ID.findIdx? (· = te) with
  | none => none
  | some idx =>
    match g.lst[idx]? with
    | none => none
    | some c =>
      if c = 'x' then some (none, g)
      else
        (g.insert_te ((idx : Int) + offset) (g.ID.count te)).map
          (fun p => (some p.1, p.2))

/-- Embeds `ListGenome.active_tes()`. -/
def ListGenome.active_tes (g : ListGenome) : List Nat := g.active_lst

/-- Embeds `ListGenome.__len__()`. -/
def ListGenome.len (g : ListGenome) : Nat := g.lst.length

/-- Embeds `ListGenome.__str__()`: `"".join(self.lst)`, kept as the character
list. -/
def ListGenome.render (g : ListGenome) : List Char := g.lst

/-- State of `LinkedListGenome`: symbols `self.lst`, ring pointers
`self.index_next`, owners `self.ID`, the active-id list and the id
counter. -/
structure LinkedListGenome where
  lst : List Char
  index_next : List Nat
  ID : List Nat
  active_lst : List Nat
  count : Nat
deriving DecidableEq

/-- Embeds `LinkedListGenome.__init__(n)`: slot `i` points to `(i+1) % n`. -/
def LinkedListGenome.init (n : Nat) : LinkedListGenome :=
  { lst := List.replicate n '-',
    index_next := (List.range n).map (fun i => (i + 1) % n),
    ID := List.replicate n 0,
    active_lst := [], count := 0 }

/-- Embeds `LinkedListGenome.disable_te`: same code as the list version. -/
def LinkedListGenome.disable_te (g : LinkedListGenome) (te : Nat) :
    Option LinkedListGenome :=
  match removeFirst g.active_lst te with
  | none => none
  | some a => some { g with lst := markX g.lst g.ID te, active_lst := a }

/-- The walk `i = 0; for _ in range(k): i = nxt[i]` (an out-of-range lookup
raises). -/
def walkN (nxt : List Nat) (i : Nat) : Nat → Option Nat
  | 0 => some i
  | k + 1 =>
    match nxt[i]? with
    | none => none
    | some j => walkN nxt j k

/-- Embeds `LinkedListGenome.insert_te`: bump the counter, walk `pos - 1` steps from
slot 0 (Python `range(pos-1)` is empty for `pos ≤ 1`), collision-check the
slot reached, read its old successor, repoint it at the first new slot
`len(self.lst)`, append the chain of `length - 1` successor handles followed
by `old_next`, and append the new symbols and owners. -/
def LinkedListGenome.insert_te (g : LinkedListGenome) (pos : Int)
    (length : Nat) : Option (Nat × LinkedListGenome) :=
  let cnt := g.count + 1
  match walkN g.index_next 0 (pos - 1).toNat with
  | none => none
  | some i =>
    match g.lst[i]? with
    | none => none
    | some c =>
      match (if c = 'A' then
               match g.ID[i]? with
               | none => none
               | some owner =>
                 LinkedListGenome.disable_te { g with count := cnt } owner
             else some { g with count := cnt }) with
      | none => none
      | some g1 =>
        match g1.index_next[i]? with
        | none => none
        | some old_next =>
          let nxt1 := g1.index_next.set i g1.lst.length
          some (cnt,
            { lst := g1.lst ++ List.replicate length 'A',
              index_next := nxt1 ++
                (List.range (length - 1)).map (fun k => nxt1.length + k + 1) ++
                [old_next],
              ID := g1.ID ++ List.replicate length cnt,
              active_lst := g1.active_lst ++ [cnt],
              count := cnt })

/-- The loop `while ID[i] != te: i = next[i]; count += 1` of
`LinkedListGenome.copy_te`, with fuel; returns the found slot and the step
count. -/
def findTE (nxt ids : List Nat) (te : Nat) : Nat → Nat → Nat → Option (Nat × Nat)
  | 0, _, _ => none
  | fuel + 1, i, cnt =>
    match ids[i]? with
    | none => none
    | some v =>
      if v = te then some (i, cnt)
      else
        match nxt[i]? with
        | none => none
        | some j => findTE nxt ids te fuel j (cnt + 1)

/-- The loop `while ID[i] == te: i = next[i]; count += 1` of
`LinkedListGenome.copy_te`, with fuel; returns the run length counted. -/
def runlenTE (nxt ids : List Nat) (te : Nat) : Nat → Nat → Nat → Option Nat
  | 0, _, _ => none
  | fuel + 1, i, cnt =>
    match ids[i]? with
    | none => none
    | some v =>
      if v = te then
        match nxt[i]? with
        | none => none
        | some j => runlenTE nxt ids te fuel j (cnt + 1)
      else some cnt

/-- Embeds `LinkedListGenome.copy_te`: return `None` when `te` is not active; otherwise walk
the ring for the first slot owned by `te` and its run length, then delegate to
`insert_te(len(self.index_next) + (te_pos + offset), count)` (the two debug
`print` calls of the source have no effect on the state). -/
def LinkedListGenome.copy_te (g : LinkedListGenome) (te : Nat) (offset : Int) :
    Option (Option Nat × LinkedListGenome) :=
  if te ∈ g.active_lst then
    match findTE g.index_next g.ID te (g.ID.length + 1) 0 0 with
    | none => none
    | some (i, te_pos) =>
      match runlenTE g.index_next g.ID te (g.ID.length + 1) i 0 with
      | none => none
      | some cnt =>
        (g.insert_te ((g.index_next.length : Int) + ((te_pos : Int) + offset))
            cnt).map (fun p => (some p.1, p.2))
  else some (none, g)

/-- Embeds `LinkedListGenome.active_tes()`. -/
def LinkedListGenome.active_tes (g : LinkedListGenome) : List Nat :=
  g.active_lst

/-- Embeds `LinkedListGenome.__len__()`. -/
def LinkedListGenome.len (g : LinkedListGenome) : Nat := g.lst.length

/-- The collection loop of `LinkedListGenome.__str__`: starting at slot 0,
append `lst[i]` and step to `index_next[i]`, for `len(self.lst)`
characters. -/
def ringWalk (lst : List Char) (nxt : List Nat) : Nat → Nat → Option (List Char)
  | 0, _ => some []
  | k + 1, i =>
    match lst[i]?, nxt[i]? with
    | some c, some j => (ringWalk lst nxt k j).map (c :: ·)
    | _, _ => none

/-- Embeds `LinkedListGenome.__str__()`. -/
def LinkedListGenome.render (g : LinkedListGenome) : Option (List Char) :=
  ringWalk g.lst g.index_next g.lst.length 0

/-- One public mutating operation of the shared `Genome` contract. -/
inductive Op where
  | insert (pos : Int) (length : Nat)
  | copy (te : Nat) (offset : Int)
  | disable (te : Nat)
deriving DecidableEq

/-- Apply one operation to a `ListGenome`, discarding the return value. -/
def ListGenome.step (g : ListGenome) : Op → Option ListGenome
  | .insert p L => (g.insert_te p L).map (·.2)
  | .copy t o => (g.copy_te t o).map (·.2)
  | .disable t => g.disable_te t

/-- Run a sequence of operations on a `ListGenome`. -/
def ListGenome.run (g : ListGenome) : List Op → Option ListGenome
  | [] => some g
  | op :: ops => (g.step op).bind (fun g' => g'.run ops)

/-- Apply one operation to a `LinkedListGenome`, discarding the return
value. -/
def LinkedListGenome.step (g : LinkedListGenome) : Op → Option LinkedListGenome
  | .insert p L => (g.insert_te p L).map (·.2)
  | .copy t o => (g.copy_te t o).map (·.2)
  | .disable t => g.disable_te t

/-- Run a sequence of operations on a `LinkedListGenome`. -/
def LinkedListGenome.run (g : LinkedListGenome) : List Op → Option LinkedListGenome
  | [] => some g
  | op :: ops => (g.step op).bind (fun g' => g'.run ops)

/-- Every id in the active list is at most the id counter. -/
def activeBoundL (g : ListGenome) : Prop := ∀ x ∈ g.active_lst, x ≤ g.count

/-- Every id in the active list is at most the id counter. -/
def activeBoundK (g : LinkedListGenome) : Prop := ∀ x ∈ g.active_lst, x ≤ g.count

/-- The successor function of the slot ring: `nxt[i]`, with a default of 0
for an out-of-range handle (never reached from a well-formed state). -/
def nextF (nxt : List Nat) : Nat → Nat := fun i => (nxt[i]?).getD 0

/-- The first `k` slots visited from `i` by iterating `f`. -/
def iterList (f : Nat → Nat) : Nat → Nat → List Nat
  | 0, _ => []
  | k + 1, i => i :: iterList f k (f i)

/-- The ring invariant on raw `index_next` storage: walking `next` from slot
0 for as many steps as there are slots visits pairwise distinct, in-range
slots and returns to slot 0. -/
def ringInv (nxt : List Nat) : Prop :=
  (iterList (nextF nxt) nxt.length 0).Nodup ∧
  (∀ x ∈ iterList (nextF nxt) nxt.length 0, x < nxt.length) ∧
  (nextF nxt)^[nxt.length] 0 = 0

/-- The lockstep-storage invariant of `ListGenome`: the symbol list and the
owner list have equal length. -/
def goodL (g : ListGenome) : Prop := g.lst.length = g.ID.length

/-- The storage invariant of `LinkedListGenome`: the symbol, owner and
next-handle lists have equal length, and the next-handles form one ring
through all slots starting at slot 0. -/
def goodK (g : LinkedListGenome) : Prop :=
  g.lst.length = g.ID.length ∧ g.lst.length = g.index_next.length ∧
  ringInv g.index_next

/-- Holds (as `true`) when the operation is not an `insert` with length 0 (the claim
restricts the invariant to inserts of length at least 1). -/
def insertLenPos : Op → Bool
  | Op.insert _ L => decide (1 ≤ L)
  | _ => true

/-!
Theorems: helper lemmas about the embedded primitives, inversion lemmas
describing the post state of each successful operation, the ring-walk and
id-lifecycle developments, and one theorem per claim (with witnesses and
counterexamples where applicable).
-/

/-- Claim C1: the claim demands that `render()` and `active_tes()` agree
between `ListGenome` and `LinkedListGenome` after every step of any fixed
operation sequence applied to genomes of the same initial size. The code
violates this: from initial size 2, the single operation `insert_te(0, 1)`
renders `"A--"` on `ListGenome` but `"-A-"` on `LinkedListGenome` (the linked
version splices after the slot reached by `pos - 1` steps, shifting the
insertion point). -/
theorem C1_impl_divergence :
    ((ListGenome.init 2).run [Op.insert 0 1]).map ListGenome.render =
      some ['A', '-', '-'] ∧
    ((LinkedListGenome.init 2).run [Op.insert 0 1]).bind
        LinkedListGenome.render = some ['-', 'A', '-'] ∧
    ((ListGenome.init 2).run [Op.insert 0 1]).map ListGenome.render ≠
      ((LinkedListGenome.init 2).run [Op.insert 0 1]).bind
        LinkedListGenome.render := by
  refine ⟨by decide, by decide, by decide⟩

/-- Claim C2: the claim says that when position `pos mod N` renders `'A'`, an
insert at `pos` removes that position's owner from the active set. On
`LinkedListGenome(4)`, after `insert_te(2, 1)` position 2 renders `'A'` with
owner id 1 and `active_tes() = [1]`; a second `insert_te(2, 1)` leaves id 1
active (`active_tes() = [1, 2]`) because the code collision-checks the slot
reached by `pos - 1` steps (the predecessor) instead of position `pos`. -/
theorem C2_linked_collision_missed :
    ((LinkedListGenome.init 4).insert_te 2 1).map
        (fun p => (p.2.render, p.2.ID, p.2.active_tes)) =
      some (some ['-', '-', 'A', '-', '-'], [0, 0, 0, 0, 1], [1]) ∧
    (((LinkedListGenome.init 4).insert_te 2 1).bind
        (fun p => p.2.insert_te 2 1)).map
        (fun p => (p.2.render, p.2.active_tes)) =
      some (some ['-', '-', 'A', 'A', '-', '-'], [1, 2]) := by
  refine ⟨by decide, by decide⟩

/-- Claim C3: the claim (and the docstring of `disable_te`) says disabling an
inactive or unknown id is a silent no-op. The code calls
`self.active_lst.remove(te)` unconditionally, so `disable_te(1)` on a fresh
genome raises `ValueError` in both implementations, and a second
`disable_te(1)` after a successful one raises as well (so the call is not
idempotent). -/
theorem C3_disable_unknown_raises :
    (ListGenome.init 2).disable_te 1 = none ∧
    (LinkedListGenome.init 2).disable_te 1 = none ∧
    (((ListGenome.init 3).insert_te 0 1).bind
        (fun p => p.2.disable_te 1)).isSome = true ∧
    (((ListGenome.init 3).insert_te 0 1).bind
        (fun p => p.2.disable_te 1)).bind (fun g => g.disable_te 1) = none := by
  refine ⟨by decide, by decide, by decide, by decide⟩

/-- Claim C4: the claim (and the docstring of `copy_te`) says copying an id
not in the active set returns `None` without mutation. In `ListGenome`, an id
that never occurs in `self.ID` leaves `index_ID` unbound and the code raises
`UnboundLocalError` (here `copy_te 1 0 = none` on a fresh genome), and the
never-issued id 0 — which is not in the active set but fills `self.ID` of the
fresh positions — is happily copied, mutating the genome (length grows from 2
to 4). -/
theorem C4_copy_inactive_raises :
    (ListGenome.init 2).copy_te 1 0 = none ∧
    (ListGenome.init 2).copy_te 0 5 =
      some (some 1,
        { lst := ['-', 'A', 'A', '-'], ID := [0, 1, 1, 0],
          active_lst := [1], count := 1 }) ∧
    (LinkedListGenome.init 2).copy_te 1 0 =
      some (none, LinkedListGenome.init 2) := by
  refine ⟨by decide, by decide, by decide⟩

/-- Claim C5: the claim says any out-of-range `pos` is normalized modulo `N`
and `insert_te` never fails. The source normalizes only when
`pos > len(self.lst)` strictly, so `pos = N` reaches `self.lst[N]` and raises
`IndexError`: on `ListGenome(2)`, `insert_te(2, 1)` fails while the claim
requires it to behave like `insert_te(0, 1)` (which succeeds); `pos < -N`
raises as well. -/
theorem C5_pos_eq_len_raises :
    (ListGenome.init 2).insert_te 2 1 = none ∧
    (ListGenome.init 2).insert_te 0 1 =
      some (1, { lst := ['A', '-', '-'], ID := [1, 0, 0],
                 active_lst := [1], count := 1 }) ∧
    (ListGenome.init 2).insert_te (-3) 1 = none := by
  refine ⟨by decide, by decide, by decide⟩

/-- Claim C6: the claim says `insert_te(pos, L)` places the `L` new `'A'`
positions starting at circular position `pos mod N`. On
`LinkedListGenome(2)`, `insert_te(0, 1)` renders `"-A-"` — the new position
sits at index 1, not at `0 mod 2 = 0` — because the code walks `pos - 1`
steps and splices after the slot reached, while `ListGenome` renders
`"A--"`. -/
theorem C6_linked_insert_shifted :
    ((LinkedListGenome.init 2).insert_te 0 1).bind
        (fun p => p.2.render) = some ['-', 'A', '-'] ∧
    ((ListGenome.init 2).insert_te 0 1).map
        (fun p => p.2.render) = some ['A', '-', '-'] := by
  refine ⟨by decide, by decide⟩

/-- Claim C7: the claim (and the docstring of `copy_te`) says the copy target
wraps circularly for any offset. On `ListGenome(3)` after `insert_te(0, 1)`,
id 1 is active with run length 1 at position 0 and the genome has length 4;
`copy_te(1, 4)` should create the copy at `(0 + 4) mod 4 = 0` but instead
delegates to `insert_te(4, ...)`, and position `4 = N` escapes the `pos > N`
normalization and raises `IndexError`. -/
theorem C7_copy_offset_raises :
    ((ListGenome.init 3).insert_te 0 1).map
        (fun p => (p.1, p.2.active_tes, p.2.ID.count 1, p.2.len)) =
      some (1, [1], 1, 4) ∧
    (((ListGenome.init 3).insert_te 0 1).bind
        (fun p => p.2.copy_te 1 4)) = none := by
  refine ⟨by decide, by decide⟩

/-- Claim C10 counterexample: the claim says `insert_te(pos, 0)` on a
`ListGenome` leaves `render()` unchanged for every in-range `pos`. After
`insert_te(0, 1)` the genome renders `"A--"`; the zero-length
`insert_te(0, 0)` collides with the active position 0, disables id 1, and the
genome renders `"x--"` — `render()` changed. -/
theorem C10_counterexample :
    ((ListGenome.init 2).insert_te 0 1).map (fun p => p.2.render) =
      some ['A', '-', '-'] ∧
    (((ListGenome.init 2).insert_te 0 1).bind
        (fun p => p.2.insert_te 0 0)).map
        (fun p => (p.1, p.2.render, p.2.len, p.2.active_tes)) =
      some (2, ['x', '-', '-'], 3, [2]) ∧
    (((ListGenome.init 2).insert_te 0 1).bind
        (fun p => p.2.insert_te 0 0)).map (fun p => p.2.render) ≠
      ((ListGenome.init 2).insert_te 0 1).map (fun p => p.2.render) := by
  refine ⟨by decide, by decide, by decide⟩

theorem removeFirst_mem {l : List Nat} {x : Nat} {l' : List Nat} {t : Nat}
    (h : removeFirst l x = some l') (hm : t ∈ l') : t ∈ l := by
  induction l generalizing l' with
  | nil => simp [removeFirst] at h
  | cons a as ih =>
    rw [removeFirst] at h
    by_cases hax : a = x
    · rw [if_pos hax] at h
      cases h
      exact List.mem_cons_of_mem _ hm
    · rw [if_neg hax] at h
      cases hr : removeFirst as x with
      | none => rw [hr] at h; simp at h
      | some bs =>
        rw [hr] at h
        simp only [Option.map_some', Option.some.injEq] at h
        subst h
        rcases List.mem_cons.1 hm with h1 | h1
        · exact h1 ▸ List.mem_cons_self a as
        · exact List.mem_cons_of_mem _ (ih hr h1)

theorem markX_length (lst : List Char) (ids : List Nat) (te : Nat) :
    (markX lst ids te).length = lst.length := by
  induction lst generalizing ids with
  | nil => rw [markX]
  | cons c cs ih =>
    cases ids with
    | nil => rw [markX]
    | cons j js => rw [markX]; simp [ih]

theorem pySplice_length {α : Type} (l : List α) (p : Int) (mid : List α) :
    (pyTake l p ++ mid ++ pyDrop l p).length = l.length + mid.length := by
  simp only [pyTake, pyDrop, List.length_append, List.length_take,
    List.length_drop]
  omega

theorem ListGenome.disable_te_spec {g : ListGenome} {te : Nat}
    {g' : ListGenome} (h : g.disable_te te = some g') :
    g'.lst = markX g.lst g.ID te ∧ g'.ID = g.ID ∧ g'.count = g.count ∧
    removeFirst g.active_lst te = some g'.active_lst := by
  rw [ListGenome.disable_te] at h
  cases hr : removeFirst g.active_lst te with
  | none => rw [hr] at h; cases h
  | some a => rw [hr] at h; cases h; exact ⟨rfl, rfl, rfl, rfl⟩

theorem LinkedListGenome.disable_te_inv {g : LinkedListGenome} {te : Nat}
    {g' : LinkedListGenome} (h : g.disable_te te = some g') :
    g'.lst = markX g.lst g.ID te ∧ g'.index_next = g.index_next ∧
    g'.ID = g.ID ∧ g'.count = g.count ∧
    removeFirst g.active_lst te = some g'.active_lst := by
  rw [LinkedListGenome.disable_te] at h
  cases hr : removeFirst g.active_lst te with
  | none => rw [hr] at h; cases h
  | some a => rw [hr] at h; cases h; exact ⟨rfl, rfl, rfl, rfl, rfl⟩

theorem ListGenome.insertCore_spec {g : ListGenome} {pos : Int}
    {L id : Nat} {g' : ListGenome} (h : g.insertCore pos L = some (id, g')) :
    ∃ gm : ListGenome,
      gm.lst.length = g.lst.length ∧ gm.ID = g.ID ∧ gm.count = g.count ∧
      (∀ t ∈ gm.active_lst, t ∈ g.active_lst) ∧ id = g.count ∧
      g' = { gm with
        lst := pyTake gm.lst pos ++ List.replicate L 'A' ++ pyDrop gm.lst pos,
        ID := pyTake gm.ID pos ++ List.replicate L g.count ++ pyDrop gm.ID pos,
        active_lst := gm.active_lst ++ [g.count] } := by
  rw [ListGenome.insertCore] at h
  split at h
  · cases h
  · split at h
    · cases h
    · next g1 hbr =>
      cases h
      split at hbr
      · split at hbr
        · cases hbr
        · next owner ho =>
          obtain ⟨hl, hi, hc, ha⟩ := ListGenome.disable_te_spec hbr
          exact ⟨g1, by rw [hl, markX_length], hi, hc,
            fun t ht => removeFirst_mem ha ht, rfl, rfl⟩
      · cases hbr
        exact ⟨g, rfl, rfl, rfl, fun t ht => ht, rfl, rfl⟩

theorem ListGenome.insert_te_spec {g : ListGenome} {pos : Int}
    {L id : Nat} {g' : ListGenome} (h : g.insert_te pos L = some (id, g')) :
    ∃ (gm : ListGenome) (p : Int),
      gm.lst.length = g.lst.length ∧ gm.ID = g.ID ∧ gm.count = g.count + 1 ∧
      (∀ t ∈ gm.active_lst, t ∈ g.active_lst) ∧ id = g.count + 1 ∧
      g' = { gm with
        lst := pyTake gm.lst p ++ List.replicate L 'A' ++ pyDrop gm.lst p,
        ID := pyTake gm.ID p ++ List.replicate L (g.count + 1) ++ pyDrop gm.ID p,
        active_lst := gm.active_lst ++ [g.count + 1] } := by
  rw [ListGenome.insert_te] at h
  by_cases h1 : pos > (g.lst.length : Int)
  · rw [if_pos h1] at h
    by_cases h2 : g.lst.length = 0
    · rw [if_pos h2] at h; cases h
    · rw [if_neg h2] at h
      obtain ⟨gm, ha, hb, hc, hd, he, hf⟩ := ListGenome.insertCore_spec h
      exact ⟨gm, _, ha, hb, hc, hd, he, hf⟩
  · rw [if_neg h1] at h
    obtain ⟨gm, ha, hb, hc, hd, he, hf⟩ := ListGenome.insertCore_spec h
    exact ⟨gm, pos, ha, hb, hc, hd, he, hf⟩

theorem ListGenome.copy_te_spec {g : ListGenome} {te : Nat} {offset : Int}
    {res : Option Nat} {g' : ListGenome}
    (h : g.copy_te te offset = some (res, g')) :
    g' = g ∨ ∃ (p : Int) (cnt nid : Nat), g.insert_te p cnt = some (nid, g') := by
  rw [ListGenome.copy_te] at h
  split at h
  · cases h
  · next idx hf =>
    split at h
    · cases h
    · next c hl =>
      split at h
      · cases h; exact Or.inl rfl
      · cases hi : g.insert_te ((idx : Int) + offset) (g.ID.count te) with
        | none => rw [hi] at h; cases h
        | some p =>
          rw [hi] at h
          cases h
          exact Or.inr ⟨_, _, p.1, by rw [hi]⟩

theorem LinkedListGenome.insert_te_inv {g : LinkedListGenome} {pos : Int}
    {L id : Nat} {g' : LinkedListGenome}
    (h : g.insert_te pos L = some (id, g')) :
    ∃ (gm : LinkedListGenome) (i old_next : Nat),
      gm.lst.length = g.lst.length ∧ gm.index_next = g.index_next ∧
      gm.ID = g.ID ∧ gm.count = g.count + 1 ∧
      (∀ t ∈ gm.active_lst, t ∈ g.active_lst) ∧
      walkN g.index_next 0 (pos - 1).toNat = some i ∧
      g.index_next[i]? = some old_next ∧
      id = g.count + 1 ∧
      g' = { lst := gm.lst ++ List.replicate L 'A',
             index_next := (gm.index_next.set i gm.lst.length) ++
               (List.range (L - 1)).map
                 (fun k => gm.index_next.length + k + 1) ++ [old_next],
             ID := gm.ID ++ List.replicate L (g.count + 1),
             active_lst := gm.active_lst ++ [g.count + 1],
             count := g.count + 1 } := by
  simp only [LinkedListGenome.insert_te] at h
  split at h
  · cases h
  · next i hwalk =>
    split at h
    · cases h
    · next c hc =>
      split at h
      · cases h
      · next g1 hbr =>
        split at h
        · cases h
        · next old_next hold =>
          cases h
          have hg1 : g1.lst.length = g.lst.length ∧ g1.index_next = g.index_next ∧
              g1.ID = g.ID ∧ g1.count = g.count + 1 ∧
              (∀ t ∈ g1.active_lst, t ∈ g.active_lst) := by
            split at hbr
            · split at hbr
              · cases hbr
              · obtain ⟨hl, hn, hi, hcn, ha⟩ := LinkedListGenome.disable_te_inv hbr
                exact ⟨by rw [hl, markX_length], hn, hi, hcn,
                  fun t ht => removeFirst_mem ha ht⟩
            · cases hbr
              exact ⟨rfl, rfl, rfl, rfl, fun t ht => ht⟩
          obtain ⟨h1, h2, h3, h4, h5⟩ := hg1
          exact ⟨g1, i, old_next, h1, h2, h3, h4, h5, hwalk, h2 ▸ hold, rfl,
            by simp [List.length_set]⟩

theorem findTE_found {nxt ids : List Nat} {te : Nat} :
    ∀ {fuel i0 c0 i cnt : Nat},
      findTE nxt ids te fuel i0 c0 = some (i, cnt) → ids[i]? = some te := by
  intro fuel
  induction fuel with
  | zero => intro i0 c0 i cnt h; simp [findTE] at h
  | succ f ih =>
    intro i0 c0 i cnt h
    rw [findTE] at h
    split at h
    · cases h
    · next v hv =>
      split at h
      · next hveq => cases h; rw [hv, hveq]
      · split at h
        · cases h
        · exact ih h

theorem runlenTE_ge {nxt ids : List Nat} {te : Nat} :
    ∀ {fuel i c r : Nat}, runlenTE nxt ids te fuel i c = some r → c ≤ r := by
  intro fuel
  induction fuel with
  | zero => intro i c r h; simp [runlenTE] at h
  | succ f ih =>
    intro i c r h
    rw [runlenTE] at h
    split at h
    · cases h
    · split at h
      · split at h
        · cases h
        · exact le_trans (Nat.le_succ c) (ih h)
      · cases h; exact le_refl _

theorem runlenTE_pos {nxt ids : List Nat} {te fuel i c r : Nat}
    (h : runlenTE nxt ids te (fuel + 1) i c = some r)
    (hid : ids[i]? = some te) : c + 1 ≤ r := by
  rw [runlenTE] at h
  split at h
  · next hnone => rw [hid] at hnone; cases hnone
  · next v hv =>
    rw [hid] at hv
    injection hv with hv
    split at h
    · split at h
      · cases h
      · exact runlenTE_ge h
    · next hne => exact absurd hv.symm hne

theorem LinkedListGenome.copy_te_inv {g : LinkedListGenome} {te : Nat}
    {offset : Int} {res : Option Nat} {g' : LinkedListGenome}
    (h : g.copy_te te offset = some (res, g')) :
    g' = g ∨ ∃ (p : Int) (cnt nid : Nat),
      1 ≤ cnt ∧ g.insert_te p cnt = some (nid, g') := by
  rw [LinkedListGenome.copy_te] at h
  split at h
  · split at h
    · cases h
    · next i te_pos hfd =>
      split at h
      · cases h
      · next cnt hrun =>
        cases hi : g.insert_te
            ((g.index_next.length : Int) + ((te_pos : Int) + offset)) cnt with
        | none => rw [hi] at h; cases h
        | some p =>
          rw [hi] at h
          cases h
          have hcnt : 1 ≤ cnt := by
            cases hf : (g.ID.length + 1) with
            | zero => simp at hf
            | succ f =>
              rw [hf] at hrun
              exact runlenTE_pos hrun (findTE_found hfd)
          exact Or.inr ⟨_, cnt, p.1, hcnt, by rw [hi]⟩
  · cases h
    exact Or.inl rfl

theorem ListGenome.insert_mono {g : ListGenome} {pos : Int} {L id : Nat}
    {g' : ListGenome} (h : g.insert_te pos L = some (id, g')) :
    g'.count = g.count + 1 ∧
    (∀ t, t ≤ g.count → t ∉ g.active_lst → t ∉ g'.active_lst) ∧
    (activeBoundL g → activeBoundL g') := by
  obtain ⟨gm, p, hlen, hID, hcnt, hact, hid, hrec⟩ := ListGenome.insert_te_spec h
  have hc' : g'.count = g.count + 1 := by rw [hrec]; exact hcnt
  have ha' : g'.active_lst = gm.active_lst ++ [g.count + 1] := by rw [hrec]
  refine ⟨hc', ?_, ?_⟩
  · intro t ht hni hmem
    rw [ha'] at hmem
    rcases List.mem_append.1 hmem with hm | hm
    · exact hni (hact t hm)
    · rcases List.mem_singleton.1 hm with rfl
      omega
  · intro hb x hx
    rw [ha'] at hx
    have hgoal : x ≤ g.count + 1 → x ≤ g'.count := by omega
    refine hgoal ?_
    rcases List.mem_append.1 hx with hm | hm
    · exact le_trans (hb x (hact x hm)) (Nat.le_succ _)
    · rcases List.mem_singleton.1 hm with rfl
      exact le_refl _

theorem ListGenome.step_mono {g g' : ListGenome} {op : Op}
    (h : g.step op = some g') :
    g.count ≤ g'.count ∧
    (∀ t, t ≤ g.count → t ∉ g.active_lst → t ∉ g'.active_lst) ∧
    (activeBoundL g → activeBoundL g') := by
  cases op with
  | insert p L =>
    simp only [ListGenome.step] at h
    cases hi : g.insert_te p L with
    | none => rw [hi] at h; cases h
    | some q =>
      rw [hi] at h
      replace h : some q.2 = some g' := h
      cases h
      have hi' : g.insert_te p L = some (q.1, q.2) := by rw [hi]
      obtain ⟨h1, h2, h3⟩ := ListGenome.insert_mono hi'
      exact ⟨by omega, h2, h3⟩
  | copy t o =>
    simp only [ListGenome.step] at h
    cases hi : g.copy_te t o with
    | none => rw [hi] at h; cases h
    | some q =>
      rw [hi] at h
      replace h : some q.2 = some g' := h
      cases h
      have hi' : g.copy_te t o = some (q.1, q.2) := by rw [hi]
      rcases ListGenome.copy_te_spec hi' with heq | ⟨p, cnt, nid, hins⟩
      · rw [heq]
        exact ⟨le_refl _, fun u hu hni => hni, fun hb => hb⟩
      · obtain ⟨h1, h2, h3⟩ := ListGenome.insert_mono hins
        exact ⟨by omega, h2, h3⟩
  | disable t =>
    simp only [ListGenome.step] at h
    obtain ⟨hl, hi, hc, ha⟩ := ListGenome.disable_te_spec h
    refine ⟨le_of_eq hc.symm, ?_, ?_⟩
    · intro u hu hni hmem
      exact hni (removeFirst_mem ha hmem)
    · intro hb x hx
      have := hb x (removeFirst_mem ha hx)
      omega

theorem ListGenome.run_mono {ops : List Op} :
    ∀ {g g' : ListGenome}, g.run ops = some g' →
    g.count ≤ g'.count ∧
    (∀ t, t ≤ g.count → t ∉ g.active_lst → t ∉ g'.active_lst) ∧
    (activeBoundL g → activeBoundL g') := by
  induction ops with
  | nil =>
    intro g g' h
    cases h
    exact ⟨le_refl _, fun t ht hni => hni, fun hb => hb⟩
  | cons op ops ih =>
    intro g g' h
    rw [ListGenome.run] at h
    cases hs : g.step op with
    | none => rw [hs] at h; cases h
    | some gmid =>
      rw [hs] at h
      replace h : gmid.run ops = some g' := h
      obtain ⟨s1, s2, s3⟩ := ListGenome.step_mono hs
      obtain ⟨r1, r2, r3⟩ := ih h
      exact ⟨le_trans s1 r1,
        fun t ht hni => r2 t (le_trans ht s1) (s2 t ht hni),
        fun hb => r3 (s3 hb)⟩

theorem LinkedListGenome.insert_count_mono {g : LinkedListGenome} {pos : Int}
    {L id : Nat} {g' : LinkedListGenome}
    (h : g.insert_te pos L = some (id, g')) :
    g'.count = g.count + 1 ∧
    (∀ t, t ≤ g.count → t ∉ g.active_lst → t ∉ g'.active_lst) ∧
    (activeBoundK g → activeBoundK g') := by
  obtain ⟨gm, i, old_next, hlen, hnx, hID, hcnt, hact, hwalk, hold, hid, hrec⟩ :=
    LinkedListGenome.insert_te_inv h
  have hc' : g'.count = g.count + 1 := by rw [hrec]
  have ha' : g'.active_lst = gm.active_lst ++ [g.count + 1] := by rw [hrec]
  refine ⟨hc', ?_, ?_⟩
  · intro t ht hni hmem
    rw [ha'] at hmem
    rcases List.mem_append.1 hmem with hm | hm
    · exact hni (hact t hm)
    · rcases List.mem_singleton.1 hm with rfl
      omega
  · intro hb x hx
    rw [ha'] at hx
    have hgoal : x ≤ g.count + 1 → x ≤ g'.count := by omega
    refine hgoal ?_
    rcases List.mem_append.1 hx with hm | hm
    · exact le_trans (hb x (hact x hm)) (Nat.le_succ _)
    · rcases List.mem_singleton.1 hm with rfl
      exact le_refl _

theorem LinkedListGenome.step_count_mono {g g' : LinkedListGenome} {op : Op}
    (h : g.step op = some g') :
    g.count ≤ g'.count ∧
    (∀ t, t ≤ g.count → t ∉ g.active_lst → t ∉ g'.active_lst) ∧
    (activeBoundK g → activeBoundK g') := by
  cases op with
  | insert p L =>
    simp only [LinkedListGenome.step] at h
    cases hi : g.insert_te p L with
    | none => rw [hi] at h; cases h
    | some q =>
      rw [hi] at h
      replace h : some q.2 = some g' := h
      cases h
      have hi' : g.insert_te p L = some (q.1, q.2) := by rw [hi]
      obtain ⟨h1, h2, h3⟩ := LinkedListGenome.insert_count_mono hi'
      exact ⟨by omega, h2, h3⟩
  | copy t o =>
    simp only [LinkedListGenome.step] at h
    cases hi : g.copy_te t o with
    | none => rw [hi] at h; cases h
    | some q =>
      rw [hi] at h
      replace h : some q.2 = some g' := h
      cases h
      have hi' : g.copy_te t o = some (q.1, q.2) := by rw [hi]
      rcases LinkedListGenome.copy_te_inv hi' with heq | ⟨p, cnt, nid, hpos, hins⟩
      · rw [heq]
        exact ⟨le_refl _, fun u hu hni => hni, fun hb => hb⟩
      · obtain ⟨h1, h2, h3⟩ := LinkedListGenome.insert_count_mono hins
        exact ⟨by omega, h2, h3⟩
  | disable t =>
    simp only [LinkedListGenome.step] at h
    obtain ⟨hl, hn, hi, hc, ha⟩ := LinkedListGenome.disable_te_inv h
    refine ⟨le_of_eq hc.symm, ?_, ?_⟩
    · intro u hu hni hmem
      exact hni (removeFirst_mem ha hmem)
    · intro hb x hx
      have := hb x (removeFirst_mem ha hx)
      omega

theorem LinkedListGenome.run_count_mono {ops : List Op} :
    ∀ {g g' : LinkedListGenome}, g.run ops = some g' →
    g.count ≤ g'.count ∧
    (∀ t, t ≤ g.count → t ∉ g.active_lst → t ∉ g'.active_lst) ∧
    (activeBoundK g → activeBoundK g') := by
  induction ops with
  | nil =>
    intro g g' h
    cases h
    exact ⟨le_refl _, fun t ht hni => hni, fun hb => hb⟩
  | cons op ops ih =>
    intro g g' h
    rw [LinkedListGenome.run] at h
    cases hs : g.step op with
    | none => rw [hs] at h; cases h
    | some gmid =>
      rw [hs] at h
      replace h : gmid.run ops = some g' := h
      obtain ⟨s1, s2, s3⟩ := LinkedListGenome.step_count_mono hs
      obtain ⟨r1, r2, r3⟩ := ih h
      exact ⟨le_trans s1 r1,
        fun t ht hni => r2 t (le_trans ht s1) (s2 t ht hni),
        fun hb => r3 (s3 hb)⟩

/-- Claim C8: once an id has been removed from the active set it is never
again a member of `active_tes()` — for both implementations, along any
successful operation sequences: if `t` is active in a state reached from a
fresh genome, and a further operation sequence leaves `t` out of the active
set, then every further successful operation sequence keeps `t` out. Fresh
ids are always `count + 1`, strictly larger than every id seen before, so no
insert or copy can re-add a removed id. -/
theorem C8_no_reactivation (n t : Nat) (ops1 ops2 ops3 : List Op) :
    (∀ s s' s'' : ListGenome,
      (ListGenome.init n).run ops1 = some s → t ∈ s.active_tes →
      s.run ops2 = some s' → t ∉ s'.active_tes →
      s'.run ops3 = some s'' → t ∉ s''.active_tes) ∧
    (∀ s s' s'' : LinkedListGenome,
      (LinkedListGenome.init n).run ops1 = some s → t ∈ s.active_tes →
      s.run ops2 = some s' → t ∉ s'.active_tes →
      s'.run ops3 = some s'' → t ∉ s''.active_tes) := by
  constructor
  · intro s s' s'' h1 hmem h2 hout h3
    have hb0 : activeBoundL (ListGenome.init n) := by
      intro x hx
      simp [ListGenome.init] at hx
    have hbs : activeBoundL s := (ListGenome.run_mono h1).2.2 hb0
    have hts : t ≤ s.count := hbs t hmem
    have hts' : t ≤ s'.count := le_trans hts (ListGenome.run_mono h2).1
    exact (ListGenome.run_mono h3).2.1 t hts' hout
  · intro s s' s'' h1 hmem h2 hout h3
    have hb0 : activeBoundK (LinkedListGenome.init n) := by
      intro x hx
      simp [LinkedListGenome.init] at hx
    have hbs : activeBoundK s := (LinkedListGenome.run_count_mono h1).2.2 hb0
    have hts : t ≤ s.count := hbs t hmem
    have hts' : t ≤ s'.count := le_trans hts (LinkedListGenome.run_count_mono h2).1
    exact (LinkedListGenome.run_count_mono h3).2.1 t hts' hout

/-- Witness for C8: on both implementations of initial size 2, id 1 becomes
active via `insert_te(0, 1)`, leaves the active set via `disable_te(1)`, and
a further `insert_te(0, 1)` (minting id 2) does not bring id 1 back. -/
theorem C8_no_reactivation_witness :
    (ListGenome.init 2).run [Op.insert 0 1] =
      some ⟨['A', '-', '-'], [1, 0, 0], [1], 1⟩ ∧
    1 ∈ ListGenome.active_tes ⟨['A', '-', '-'], [1, 0, 0], [1], 1⟩ ∧
    ListGenome.run ⟨['A', '-', '-'], [1, 0, 0], [1], 1⟩ [Op.disable 1] =
      some ⟨['x', '-', '-'], [1, 0, 0], [], 1⟩ ∧
    1 ∉ ListGenome.active_tes ⟨['x', '-', '-'], [1, 0, 0], [], 1⟩ ∧
    ListGenome.run ⟨['x', '-', '-'], [1, 0, 0], [], 1⟩ [Op.insert 0 1] =
      some ⟨['A', 'x', '-', '-'], [2, 1, 0, 0], [2], 2⟩ ∧
    1 ∉ ListGenome.active_tes ⟨['A', 'x', '-', '-'], [2, 1, 0, 0], [2], 2⟩ ∧
    (LinkedListGenome.init 2).run [Op.insert 0 1] =
      some ⟨['-', '-', 'A'], [2, 0, 1], [0, 0, 1], [1], 1⟩ ∧
    1 ∈ LinkedListGenome.active_tes ⟨['-', '-', 'A'], [2, 0, 1], [0, 0, 1], [1], 1⟩ ∧
    LinkedListGenome.run ⟨['-', '-', 'A'], [2, 0, 1], [0, 0, 1], [1], 1⟩
        [Op.disable 1] =
      some ⟨['-', '-', 'x'], [2, 0, 1], [0, 0, 1], [], 1⟩ ∧
    1 ∉ LinkedListGenome.active_tes ⟨['-', '-', 'x'], [2, 0, 1], [0, 0, 1], [], 1⟩ ∧
    LinkedListGenome.run ⟨['-', '-', 'x'], [2, 0, 1], [0, 0, 1], [], 1⟩
        [Op.insert 0 1] =
      some ⟨['-', '-', 'x', 'A'], [3, 0, 1, 2], [0, 0, 1, 2], [2], 2⟩ ∧
    1 ∉ LinkedListGenome.active_tes
        ⟨['-', '-', 'x', 'A'], [3, 0, 1, 2], [0, 0, 1, 2], [2], 2⟩ := by
  refine ⟨by decide, by decide, by decide, by decide, by decide, ?_,
    by decide, by decide, by decide, by decide, by decide, ?_⟩
  · exact (C8_no_reactivation 2 1 [Op.insert 0 1] [Op.disable 1]
      [Op.insert 0 1]).1 ⟨['A', '-', '-'], [1, 0, 0], [1], 1⟩
      ⟨['x', '-', '-'], [1, 0, 0], [], 1⟩
      ⟨['A', 'x', '-', '-'], [2, 1, 0, 0], [2], 2⟩
      (by decide) (by decide) (by decide) (by decide) (by decide)
  · exact (C8_no_reactivation 2 1 [Op.insert 0 1] [Op.disable 1]
      [Op.insert 0 1]).2 ⟨['-', '-', 'A'], [2, 0, 1], [0, 0, 1], [1], 1⟩
      ⟨['-', '-', 'x'], [2, 0, 1], [0, 0, 1], [], 1⟩
      ⟨['-', '-', 'x', 'A'], [3, 0, 1, 2], [0, 0, 1, 2], [2], 2⟩
      (by decide) (by decide) (by decide) (by decide) (by decide)

theorem ListGenome.insertCore_no_collision {g : ListGenome} {pos : Int}
    {L : Nat} {c : Char} (hg : pyGet g.lst pos = some c) (hc : c ≠ 'A') :
    g.insertCore pos L = some (g.count, { g with
      lst := pyTake g.lst pos ++ List.replicate L 'A' ++ pyDrop g.lst pos,
      ID := pyTake g.ID pos ++ List.replicate L g.count ++ pyDrop g.ID pos,
      active_lst := g.active_lst ++ [g.count] }) := by
  rw [ListGenome.insertCore]
  split
  · next heq => rw [hg] at heq; cases heq
  · next c' heq =>
    rw [hg] at heq
    injection heq with heq
    subst heq
    split
    · next heq2 => rw [if_neg hc] at heq2; cases heq2
    · next g1 heq2 =>
      rw [if_neg hc] at heq2
      injection heq2 with heq2
      subst heq2
      rfl

/-- Claim C10 (amended): on a `ListGenome`, for an in-range `pos` whose
position does not currently render `'A'` (so the zero-length insert does not
trigger the collision branch), `insert_te(pos, 0)` mints and returns the
fresh id `count + 1`, appends it to the active list, and leaves the symbol
and owner lists — hence `length()` and `render()` — unchanged; when every
owner id is bounded by the counter (true of every reachable state), the
fresh id owns zero positions. -/
theorem C10_amended_zero_insert (g : ListGenome) (pos : Nat)
    (h1 : pos < g.lst.length) (h2 : g.lst[pos]? ≠ some 'A')
    (h3 : ∀ x ∈ g.ID, x ≤ g.count) :
    g.insert_te (pos : Int) 0 =
      some (g.count + 1,
        { g with count := g.count + 1,
                 active_lst := g.active_lst ++ [g.count + 1] }) ∧
    (g.count + 1) ∉ g.ID := by
  have hna : ¬ ((pos : Int) > (g.lst.length : Int)) := by
    push_neg
    exact_mod_cast Nat.le_of_lt h1
  have hget : pyGet g.lst (pos : Int) = g.lst[pos]? := by
    simp [pyGet]
  obtain ⟨c, hc⟩ : ∃ c, g.lst[pos]? = some c :=
    ⟨g.lst[pos], List.getElem?_eq_getElem h1⟩
  have hcne : c ≠ 'A' := fun hh => h2 (hh ▸ hc)
  constructor
  · rw [ListGenome.insert_te, if_neg hna]
    have hget2 : pyGet ({ g with count := g.count + 1 } : ListGenome).lst
        (pos : Int) = some c := hget.trans hc
    rw [ListGenome.insertCore_no_collision hget2 hcne]
    simp [pyTake, pyDrop, pySliceIdx, List.take_append_drop]
  · intro hmem
    have := h3 _ hmem
    omega

/-- Witness for the amended C10: on a fresh `ListGenome(2)`, position 0
renders `'-'`, and `insert_te(0, 0)` returns the fresh id 1, activates it,
owns no position, and changes nothing else. -/
theorem C10_amended_zero_insert_witness :
    (0 < (ListGenome.init 2).lst.length ∧
     (ListGenome.init 2).lst[0]? ≠ some 'A' ∧
     ∀ x ∈ (ListGenome.init 2).ID, x ≤ (ListGenome.init 2).count) ∧
    ((ListGenome.init 2).insert_te ((0 : Nat) : Int) 0 =
       some (1, { ListGenome.init 2 with count := 1, active_lst := [1] }) ∧
     (1 : Nat) ∉ (ListGenome.init 2).ID) := by
  refine ⟨⟨by decide, by decide, by decide⟩, ?_⟩
  exact C10_amended_zero_insert (ListGenome.init 2) 0 (by decide) (by decide)
    (by decide)

theorem iterList_length (f : Nat → Nat) : ∀ (k i : Nat),
    (iterList f k i).length = k := by
  intro k
  induction k with
  | zero => intro i; rfl
  | succ k ih => intro i; rw [iterList]; simp [ih]

theorem iterList_append (f : Nat → Nat) : ∀ (a b i : Nat),
    iterList f (a + b) i = iterList f a i ++ iterList f b (f^[a] i) := by
  intro a
  induction a with
  | zero =>
    intro b i
    simp [iterList, Nat.zero_add]
  | succ a ih =>
    intro b i
    rw [Nat.succ_add, iterList, iterList, ih b (f i),
      Function.iterate_succ_apply, List.cons_append]

theorem iterList_getElem? (f : Nat → Nat) : ∀ (k i j : Nat), j < k →
    (iterList f k i)[j]? = some (f^[j] i) := by
  intro k
  induction k with
  | zero => intro i j hj; omega
  | succ k ih =>
    intro i j hj
    rw [iterList]
    cases j with
    | zero => simp
    | succ j =>
      simp only [List.getElem?_cons_succ]
      rw [ih (f i) j (by omega), Function.iterate_succ_apply]

theorem mem_iterList (f : Nat → Nat) : ∀ (k i x : Nat),
    x ∈ iterList f k i ↔ ∃ j, j < k ∧ f^[j] i = x := by
  intro k
  induction k with
  | zero => intro i x; simp [iterList]
  | succ k ih =>
    intro i x
    rw [iterList, List.mem_cons, ih (f i) x]
    constructor
    · rintro (rfl | ⟨j, hj, rfl⟩)
      · exact ⟨0, by omega, rfl⟩
      · exact ⟨j + 1, by omega, by rw [Function.iterate_succ_apply]⟩
    · rintro ⟨j, hj, rfl⟩
      cases j with
      | zero => exact Or.inl rfl
      | succ j =>
        exact Or.inr ⟨j, by omega, by rw [Function.iterate_succ_apply]⟩

theorem iterList_congr (f f' : Nat → Nat) : ∀ (k i : Nat),
    (∀ x ∈ iterList f k i, f' x = f x) →
    iterList f' k i = iterList f k i ∧ f'^[k] i = f^[k] i := by
  intro k
  induction k with
  | zero => intro i h; exact ⟨rfl, rfl⟩
  | succ k ih =>
    intro i h
    have hfi : f' i = f i := h i (by rw [iterList]; exact List.mem_cons_self _ _)
    have ih' := ih (f i) (fun x hx => h x
      (by rw [iterList]; exact List.mem_cons_of_mem _ hx))
    constructor
    · rw [iterList, iterList, hfi, ih'.1]
    · rw [Function.iterate_succ_apply, Function.iterate_succ_apply, hfi, ih'.2]

theorem iterate_mod (f : Nat → Nat) (n : Nat) (h0 : f^[n] 0 = 0)
    (hn : 0 < n) : ∀ m, f^[m] 0 = f^[m % n] 0 := by
  intro m
  induction m using Nat.strong_induction_on with
  | _ m ih =>
    by_cases hm : m < n
    · rw [Nat.mod_eq_of_lt hm]
    · push_neg at hm
      have hlt : m - n < m := by omega
      have hsplit : f^[m] 0 = f^[m - n] 0 := by
        have hm' : m = (m - n) + n := by omega
        conv_lhs => rw [hm']
        rw [Function.iterate_add_apply, h0]
      rw [hsplit, ih _ hlt, Nat.mod_eq_sub_mod hm]

theorem walkN_eq (nxt : List Nat) : ∀ (k i : Nat),
    (∀ x ∈ iterList (nextF nxt) k i, x < nxt.length) →
    walkN nxt i k = some ((nextF nxt)^[k] i) := by
  intro k
  induction k with
  | zero => intro i h; simp [walkN]
  | succ k ih =>
    intro i h
    have hi : i < nxt.length := h i
      (by rw [iterList]; exact List.mem_cons_self _ _)
    have hni : nextF nxt i = nxt[i] := by
      simp [nextF, List.getElem?_eq_getElem hi]
    rw [walkN, List.getElem?_eq_getElem hi]
    show walkN nxt nxt[i] k = some ((nextF nxt)^[k + 1] i)
    rw [← hni, Function.iterate_succ_apply]
    refine ih (nextF nxt i) (fun x hx => h x ?_)
    rw [iterList]
    exact List.mem_cons_of_mem _ hx

theorem ringInv_orbit_mem (nxt : List Nat) (h : ringInv nxt)
    (hn : 0 < nxt.length) (m : Nat) :
    (nextF nxt)^[m] 0 ∈ iterList (nextF nxt) nxt.length 0 := by
  rw [iterate_mod (nextF nxt) nxt.length h.2.2 hn m, mem_iterList]
  exact ⟨m % nxt.length, Nat.mod_lt _ hn, rfl⟩

theorem ringInv_orbit_lt (nxt : List Nat) (h : ringInv nxt)
    (hn : 0 < nxt.length) (m : Nat) : (nextF nxt)^[m] 0 < nxt.length :=
  h.2.1 _ (ringInv_orbit_mem nxt h hn m)

theorem iter_ne_of_nodup (f : Nat → Nat) (n j k : Nat)
    (hnodup : (iterList f n 0).Nodup) (hj : j < n) (hk : k < n)
    (hne : j ≠ k) : f^[j] 0 ≠ f^[k] 0 := by
  intro heq
  apply hne
  have e1 := iterList_getElem? f n 0 j hj
  have e2 := iterList_getElem? f n 0 k hk
  have e3 : (iterList f n 0)[j]? = (iterList f n 0)[k]? := by
    rw [e1, e2, heq]
  exact List.getElem?_inj (by rw [iterList_length]; exact hj) hnodup e3

theorem chain_iterList (f : Nat → Nat) : ∀ (L s t : Nat), 1 ≤ L →
    (∀ k, k < L - 1 → f (s + k) = s + k + 1) → f (s + (L - 1)) = t →
    iterList f L s = List.range' s L ∧ f^[L] s = t := by
  intro L
  induction L with
  | zero => intro s t h1 _ _; omega
  | succ L ih =>
    intro s t h1 hchain hlast
    by_cases hL0 : L = 0
    · subst hL0
      constructor
      · rw [iterList, iterList, List.range'_succ]
        rfl
      · rw [Function.iterate_one]
        simpa using hlast
    · have hL : 1 ≤ L := Nat.one_le_iff_ne_zero.2 hL0
      have hf0 : f s = s + 1 := by
        have h := hchain 0 (by omega)
        simpa using h
      have hch' : ∀ k, k < L - 1 → f (s + 1 + k) = s + 1 + k + 1 := by
        intro k hk
        have heq : s + 1 + k = s + (k + 1) := by omega
        rw [heq, hchain (k + 1) (by omega)]
      have hlast' : f (s + 1 + (L - 1)) = t := by
        have heq : s + 1 + (L - 1) = s + (L + 1 - 1) := by omega
        rw [heq, hlast]
      have ihh := ih (s + 1) t hL hch' hlast'
      constructor
      · rw [iterList, hf0, ihh.1, List.range'_succ]
      · rw [Function.iterate_succ_apply, hf0, ihh.2]

/-- Splicing a fresh ascending chain of `L` new slots `n, …, n + L - 1` into
a ring of `n` slots right after the slot `f^[k₀] 0` yields a ring of `n + L`
slots: abstract version over the successor functions before (`f`) and after
(`f'`) the splice. -/
theorem ring_extend (f f' : Nat → Nat) (n L k₀ : Nat)
    (hn : 0 < n) (hL : 1 ≤ L) (hk₀ : k₀ < n)
    (hnodup : (iterList f n 0).Nodup)
    (hlt : ∀ x ∈ iterList f n 0, x < n)
    (hret : f^[n] 0 = 0)
    (hagree : ∀ x, x < n → x ≠ f^[k₀] 0 → f' x = f x)
    (hp : f' (f^[k₀] 0) = n)
    (hchain : ∀ k, k < L - 1 → f' (n + k) = n + k + 1)
    (hlast : f' (n + (L - 1)) = f (f^[k₀] 0)) :
    (iterList f' (n + L) 0).Nodup ∧
    (∀ x ∈ iterList f' (n + L) 0, x < n + L) ∧
    f'^[n + L] 0 = 0 := by
  have hpre : iterList f' k₀ 0 = iterList f k₀ 0 ∧ f'^[k₀] 0 = f^[k₀] 0 := by
    refine iterList_congr f f' k₀ 0 (fun x hx => ?_)
    obtain ⟨j, hj, rfl⟩ := (mem_iterList f k₀ 0 x).1 hx
    refine hagree _ (hlt _ ((mem_iterList f n 0 _).2 ⟨j, by omega, rfl⟩))
      (iter_ne_of_nodup f n j k₀ hnodup (by omega) hk₀ (by omega))
  have hstep : f'^[k₀ + 1] 0 = n := by
    rw [Function.iterate_succ_apply', hpre.2, hp]
  have hch := chain_iterList f' L n (f (f^[k₀] 0)) hL hchain hlast
  have hsuf : iterList f' (n - (k₀ + 1)) (f^[k₀ + 1] 0) =
      iterList f (n - (k₀ + 1)) (f^[k₀ + 1] 0) ∧
      f'^[n - (k₀ + 1)] (f^[k₀ + 1] 0) = f^[n - (k₀ + 1)] (f^[k₀ + 1] 0) := by
    refine iterList_congr f f' (n - (k₀ + 1)) (f^[k₀ + 1] 0) (fun x hx => ?_)
    obtain ⟨j, hj, rfl⟩ := (mem_iterList f (n - (k₀ + 1)) (f^[k₀ + 1] 0) x).1 hx
    rw [← Function.iterate_add_apply]
    refine hagree _ (hlt _ ((mem_iterList f n 0 _).2 ⟨j + (k₀ + 1), by omega, rfl⟩))
      (iter_ne_of_nodup f n (j + (k₀ + 1)) k₀ hnodup (by omega) hk₀ (by omega))
  have hsufend : f^[n - (k₀ + 1)] (f^[k₀ + 1] 0) = 0 := by
    rw [← Function.iterate_add_apply,
      show n - (k₀ + 1) + (k₀ + 1) = n from by omega, hret]
  have hpre1 : iterList f' (k₀ + 1) 0 = iterList f (k₀ + 1) 0 := by
    have e1 := iterList_append f' k₀ 1 0
    have e2 := iterList_append f k₀ 1 0
    rw [e1, e2, hpre.1, hpre.2]
    rfl
  have hold : iterList f n 0 =
      iterList f (k₀ + 1) 0 ++ iterList f (n - (k₀ + 1)) (f^[k₀ + 1] 0) := by
    conv_lhs => rw [show n = (k₀ + 1) + (n - (k₀ + 1)) from by omega]
    exact iterList_append f (k₀ + 1) (n - (k₀ + 1)) 0
  have hchend : f'^[L] n = f^[k₀ + 1] 0 := by
    rw [hch.2, Function.iterate_succ_apply']
  have hnew : iterList f' (n + L) 0 =
      iterList f (k₀ + 1) 0 ++ List.range' n L ++
      iterList f (n - (k₀ + 1)) (f^[k₀ + 1] 0) := by
    conv_lhs => rw [show n + L = (k₀ + 1) + (L + (n - (k₀ + 1))) from by omega]
    rw [iterList_append f' (k₀ + 1) (L + (n - (k₀ + 1))) 0,
      iterList_append f' L (n - (k₀ + 1)) _, hstep, hch.1, hchend,
      hsuf.1, hpre1, List.append_assoc]
  obtain ⟨hA, hB, hAB⟩ := List.nodup_append.1 (hold ▸ hnodup)
  have hAlt : ∀ x ∈ iterList f (k₀ + 1) 0, x < n := by
    intro x hx
    exact hlt x (by rw [hold]; exact List.mem_append_left _ hx)
  have hBlt : ∀ x ∈ iterList f (n - (k₀ + 1)) (f^[k₀ + 1] 0), x < n := by
    intro x hx
    exact hlt x (by rw [hold]; exact List.mem_append_right _ hx)
  refine ⟨?_, ?_, ?_⟩
  · rw [hnew, List.append_assoc]
    refine List.nodup_append.2 ⟨hA, List.nodup_append.2
      ⟨List.nodup_range' n L 1 Nat.one_pos, hB, ?_⟩, ?_⟩
    · intro x hxR hxB
      have h1 := (List.mem_range'_1.1 hxR).1
      have h2 := hBlt x hxB
      omega
    · intro x hxA hxRB
      rcases List.mem_append.1 hxRB with hxR | hxB
      · have h1 := (List.mem_range'_1.1 hxR).1
        have h2 := hAlt x hxA
        omega
      · exact hAB hxA hxB
  · intro x hx
    rw [hnew] at hx
    rcases List.mem_append.1 hx with hx1 | hxB
    · rcases List.mem_append.1 hx1 with hxA | hxR
      · have := hAlt x hxA; omega
      · have := (List.mem_range'_1.1 hxR).2; omega
    · have := hBlt x hxB; omega
  · rw [show n + L = (n - (k₀ + 1)) + (L + (k₀ + 1)) from by omega,
      Function.iterate_add_apply, Function.iterate_add_apply, hstep,
      hchend, hsuf.2, hsufend]

theorem getElem?_some_lt {α : Type} {l : List α} {i : Nat} {x : α}
    (h : l[i]? = some x) : i < l.length := by
  by_contra hc
  push_neg at hc
  rw [List.getElem?_eq_none hc] at h
  cases h

/-- The splice performed by `LinkedListGenome.insert_te` preserves the ring
invariant: repointing an on-ring slot `p` at the first fresh slot, chaining
the `L - 1` further fresh slots, and closing the chain with `p`'s old
successor. -/
theorem ringInv_splice (nxt : List Nat) (hinv : ringInv nxt)
    (hn : 0 < nxt.length) (p m L old : Nat)
    (hp : p = (nextF nxt)^[m] 0) (hL : 1 ≤ L)
    (hold : nxt[p]? = some old) :
    ringInv ((nxt.set p nxt.length) ++
      (List.range (L - 1)).map (fun k => nxt.length + k + 1) ++ [old]) := by
  have hplt : p < nxt.length := getElem?_some_lt hold
  have hpmod : p = (nextF nxt)^[m % nxt.length] 0 := by
    rw [hp, iterate_mod (nextF nxt) nxt.length hinv.2.2 hn m]
  have hfold : nextF nxt p = old := by
    show (nxt[p]?).getD 0 = old
    rw [hold]
    rfl
  have hAlen : (nxt.set p nxt.length).length = nxt.length :=
    List.length_set nxt p nxt.length
  have hABlen : ((nxt.set p nxt.length) ++
      (List.range (L - 1)).map (fun k => nxt.length + k + 1)).length =
      nxt.length + (L - 1) := by
    simp [hAlen]
  have hlen' : ((nxt.set p nxt.length) ++
      (List.range (L - 1)).map (fun k => nxt.length + k + 1) ++
      [old]).length = nxt.length + L := by
    simp [hAlen]
    omega
  rw [ringInv, hlen']
  have hagree : ∀ x, x < nxt.length →
      x ≠ (nextF nxt)^[m % nxt.length] 0 →
      nextF ((nxt.set p nxt.length) ++
        (List.range (L - 1)).map (fun k => nxt.length + k + 1) ++ [old]) x =
      nextF nxt x := by
    intro x hx hne
    rw [← hpmod] at hne
    show (((nxt.set p nxt.length) ++
      (List.range (L - 1)).map (fun k => nxt.length + k + 1) ++
      [old])[x]?).getD 0 = (nxt[x]?).getD 0
    rw [List.getElem?_append, if_pos (by rw [hABlen]; omega),
      List.getElem?_append, if_pos (by rw [hAlen]; omega),
      List.getElem?_set_ne (Ne.symm hne)]
  have hpval : nextF ((nxt.set p nxt.length) ++
      (List.range (L - 1)).map (fun k => nxt.length + k + 1) ++ [old])
      ((nextF nxt)^[m % nxt.length] 0) = nxt.length := by
    rw [← hpmod]
    show (((nxt.set p nxt.length) ++
      (List.range (L - 1)).map (fun k => nxt.length + k + 1) ++
      [old])[p]?).getD 0 = nxt.length
    rw [List.getElem?_append, if_pos (by rw [hABlen]; omega),
      List.getElem?_append, if_pos (by rw [hAlen]; omega),
      List.getElem?_set_eq_of_lt nxt.length hplt]
    rfl
  have hchain : ∀ k, k < L - 1 →
      nextF ((nxt.set p nxt.length) ++
        (List.range (L - 1)).map (fun k => nxt.length + k + 1) ++ [old])
        (nxt.length + k) = nxt.length + k + 1 := by
    intro k hk
    show (((nxt.set p nxt.length) ++
      (List.range (L - 1)).map (fun k => nxt.length + k + 1) ++
      [old])[nxt.length + k]?).getD 0 = nxt.length + k + 1
    rw [List.getElem?_append, if_pos (by rw [hABlen]; omega),
      List.getElem?_append, if_neg (by rw [hAlen]; omega),
      hAlen, Nat.add_sub_cancel_left, List.getElem?_map,
      List.getElem?_range hk]
    rfl
  have hlast : nextF ((nxt.set p nxt.length) ++
      (List.range (L - 1)).map (fun k => nxt.length + k + 1) ++ [old])
      (nxt.length + (L - 1)) =
      nextF nxt ((nextF nxt)^[m % nxt.length] 0) := by
    rw [← hpmod, hfold]
    show (((nxt.set p nxt.length) ++
      (List.range (L - 1)).map (fun k => nxt.length + k + 1) ++
      [old])[nxt.length + (L - 1)]?).getD 0 = old
    rw [List.getElem?_append, if_neg (by rw [hABlen]; omega),
      hABlen, Nat.sub_self]
    rfl
  exact ring_extend (nextF nxt) _ nxt.length L (m % nxt.length) hn hL
    (Nat.mod_lt _ hn) hinv.1 hinv.2.1 hinv.2.2 hagree hpval hchain hlast

theorem goodL_init (n : Nat) : goodL (ListGenome.init n) := by
  rw [goodL, ListGenome.init]
  simp

theorem ringInv_rotate (n : Nat) :
    ringInv ((List.range n).map (fun i => (i + 1) % n)) := by
  have hlen : ((List.range n).map (fun i => (i + 1) % n)).length = n := by
    simp
  have hval : ∀ j, j < n →
      nextF ((List.range n).map (fun i => (i + 1) % n)) j = (j + 1) % n := by
    intro j hj
    show (((List.range n).map (fun i => (i + 1) % n))[j]?).getD 0 = (j + 1) % n
    rw [List.getElem?_map, List.getElem?_range hj]
    rfl
  have hiter : ∀ j, j < n →
      (nextF ((List.range n).map (fun i => (i + 1) % n)))^[j] 0 = j := by
    intro j
    induction j with
    | zero => intro _; rfl
    | succ j ih =>
      intro hj
      rw [Function.iterate_succ_apply', ih (by omega), hval j (by omega)]
      exact Nat.mod_eq_of_lt hj
  have horb : iterList (nextF ((List.range n).map (fun i => (i + 1) % n))) n 0 =
      List.range n := by
    refine List.ext_getElem? (fun j => ?_)
    by_cases hj : j < n
    · rw [iterList_getElem? _ n 0 j hj, hiter j hj, List.getElem?_range hj]
    · rw [List.getElem?_eq_none (by rw [iterList_length]; omega),
        List.getElem?_eq_none (by rw [List.length_range]; omega)]
  have hret : (nextF ((List.range n).map (fun i => (i + 1) % n)))^[n] 0 = 0 := by
    cases n with
    | zero => rfl
    | succ k =>
      rw [Function.iterate_succ_apply', hiter k (by omega), hval k (by omega)]
      exact Nat.mod_self (k + 1)
  rw [ringInv, hlen, horb]
  exact ⟨List.nodup_range n, fun x hx => List.mem_range.1 hx, hret⟩

theorem goodK_init (n : Nat) : goodK (LinkedListGenome.init n) := by
  refine ⟨?_, ?_, ?_⟩
  · rw [LinkedListGenome.init]
    simp
  · rw [LinkedListGenome.init]
    simp
  · show ringInv ((List.range n).map (fun i => (i + 1) % n))
    exact ringInv_rotate n

theorem ListGenome.insert_goodL {g : ListGenome} {pos : Int} {L id : Nat}
    {g' : ListGenome} (h : g.insert_te pos L = some (id, g'))
    (hg : goodL g) : goodL g' := by
  obtain ⟨gm, p, hlen, hID, hcnt, hact, hid, hrec⟩ := ListGenome.insert_te_spec h
  have h1 : g'.lst =
      pyTake gm.lst p ++ List.replicate L 'A' ++ pyDrop gm.lst p := by rw [hrec]
  have h2 : g'.ID = pyTake gm.ID p ++ List.replicate L (g.count + 1) ++
      pyDrop gm.ID p := by rw [hrec]
  rw [goodL, h1, h2, pySplice_length, pySplice_length, hlen, hID]
  rw [goodL] at hg
  simp [hg]

theorem ListGenome.step_goodL {g g' : ListGenome} {op : Op}
    (h : g.step op = some g') (hg : goodL g) : goodL g' := by
  cases op with
  | insert p L =>
    simp only [ListGenome.step] at h
    cases hi : g.insert_te p L with
    | none => rw [hi] at h; cases h
    | some q =>
      rw [hi] at h
      replace h : some q.2 = some g' := h
      cases h
      exact ListGenome.insert_goodL (by rw [hi]) hg
  | copy t o =>
    simp only [ListGenome.step] at h
    cases hi : g.copy_te t o with
    | none => rw [hi] at h; cases h
    | some q =>
      rw [hi] at h
      replace h : some q.2 = some g' := h
      cases h
      have hi' : g.copy_te t o = some (q.1, q.2) := by rw [hi]
      rcases ListGenome.copy_te_spec hi' with heq | ⟨p, cnt, nid, hins⟩
      · rw [heq]; exact hg
      · exact ListGenome.insert_goodL hins hg
  | disable t =>
    simp only [ListGenome.step] at h
    obtain ⟨hl, hi, hc, ha⟩ := ListGenome.disable_te_spec h
    rw [goodL, hl, hi, markX_length]
    exact hg

theorem ListGenome.run_goodL {ops : List Op} :
    ∀ {g g' : ListGenome}, g.run ops = some g' → goodL g → goodL g' := by
  induction ops with
  | nil => intro g g' h hg; cases h; exact hg
  | cons op ops ih =>
    intro g g' h hg
    rw [ListGenome.run] at h
    cases hs : g.step op with
    | none => rw [hs] at h; cases h
    | some gmid =>
      rw [hs] at h
      replace h : gmid.run ops = some g' := h
      exact ih h (ListGenome.step_goodL hs hg)

theorem LinkedListGenome.insert_good {g : LinkedListGenome} {pos : Int}
    {L id : Nat} {g' : LinkedListGenome} (hL : 1 ≤ L)
    (h : g.insert_te pos L = some (id, g')) (hg : goodK g) : goodK g' := by
  obtain ⟨gm, i, old_next, hlen, hnx, hID, hcnt, hact, hwalk, hold, hid, hrec⟩ :=
    LinkedListGenome.insert_te_inv h
  have hilt : i < g.index_next.length := getElem?_some_lt hold
  have hn : 0 < g.index_next.length := by omega
  have hbound : ∀ x ∈ iterList (nextF g.index_next) (pos - 1).toNat 0,
      x < g.index_next.length := by
    intro x hx
    obtain ⟨j, hj, rfl⟩ :=
      (mem_iterList (nextF g.index_next) (pos - 1).toNat 0 x).1 hx
    exact ringInv_orbit_lt g.index_next hg.2.2 hn j
  have hieq : i = (nextF g.index_next)^[(pos - 1).toNat] 0 := by
    have hwe := walkN_eq g.index_next (pos - 1).toNat 0 hbound
    rw [hwalk] at hwe
    injection hwe
  have h1 : g'.lst = gm.lst ++ List.replicate L 'A' := by rw [hrec]
  have h2 : g'.ID = gm.ID ++ List.replicate L (g.count + 1) := by rw [hrec]
  have h3 : g'.index_next = (gm.index_next.set i gm.lst.length) ++
      (List.range (L - 1)).map (fun k => gm.index_next.length + k + 1) ++
      [old_next] := by rw [hrec]
  refine ⟨?_, ?_, ?_⟩
  · rw [h1, h2, hID]
    simp [hlen, hg.1]
  · rw [h1, h3, hnx]
    simp [hlen, hg.2.1]
    omega
  · rw [h3, hnx, hlen, hg.2.1]
    exact ringInv_splice g.index_next hg.2.2 hn i (pos - 1).toNat L old_next
      hieq hL hold

theorem LinkedListGenome.step_good {g g' : LinkedListGenome} {op : Op}
    (hop : insertLenPos op = true) (h : g.step op = some g') (hg : goodK g) :
    goodK g' := by
  cases op with
  | insert p L =>
    simp only [insertLenPos] at hop
    have hL : 1 ≤ L := of_decide_eq_true hop
    simp only [LinkedListGenome.step] at h
    cases hi : g.insert_te p L with
    | none => rw [hi] at h; cases h
    | some q =>
      rw [hi] at h
      replace h : some q.2 = some g' := h
      cases h
      exact LinkedListGenome.insert_good hL (by rw [hi]) hg
  | copy t o =>
    simp only [LinkedListGenome.step] at h
    cases hi : g.copy_te t o with
    | none => rw [hi] at h; cases h
    | some q =>
      rw [hi] at h
      replace h : some q.2 = some g' := h
      cases h
      have hi' : g.copy_te t o = some (q.1, q.2) := by rw [hi]
      rcases LinkedListGenome.copy_te_inv hi' with heq | ⟨p, cnt, nid, hpos, hins⟩
      · rw [heq]; exact hg
      · exact LinkedListGenome.insert_good hpos hins hg
  | disable t =>
    simp only [LinkedListGenome.step] at h
    obtain ⟨hl, hn, hi, hc, ha⟩ := LinkedListGenome.disable_te_inv h
    refine ⟨?_, ?_, ?_⟩
    · rw [hl, hi, markX_length]
      exact hg.1
    · rw [hl, hn, markX_length]
      exact hg.2.1
    · rw [hn]
      exact hg.2.2

theorem LinkedListGenome.run_good {ops : List Op} :
    (∀ op ∈ ops, insertLenPos op = true) →
    ∀ {g g' : LinkedListGenome}, g.run ops = some g' → goodK g → goodK g' := by
  induction ops with
  | nil => intro _ g g' h hg; cases h; exact hg
  | cons op ops ih =>
    intro hops g g' h hg
    rw [LinkedListGenome.run] at h
    cases hs : g.step op with
    | none => rw [hs] at h; cases h
    | some gmid =>
      rw [hs] at h
      replace h : gmid.run ops = some g' := h
      refine ih (fun o ho => hops o (List.mem_cons_of_mem _ ho)) h
        (LinkedListGenome.step_good (hops op (List.mem_cons_self _ _)) hs hg)

/-- Claim C9: the lockstep-storage invariant. For every operation sequence
whose explicit inserts have length at least 1, every `ListGenome` reachable
from a fresh genome keeps `len(self.lst) = len(self.ID)` (`goodL`), and every
reachable `LinkedListGenome` keeps the three parallel lists of equal length
with `index_next` forming a single ring: following `next` from slot 0 for
`len(index_next)` steps visits pairwise-distinct in-range slots and returns
to slot 0 (`goodK`). -/
theorem C9_lockstep_ring (ops : List Op)
    (hops : ∀ op ∈ ops, insertLenPos op = true) (n : Nat) :
    (∀ gL : ListGenome, (ListGenome.init n).run ops = some gL → goodL gL) ∧
    (∀ gK : LinkedListGenome,
      (LinkedListGenome.init n).run ops = some gK → goodK gK) := by
  constructor
  · intro gL h
    exact ListGenome.run_goodL h (goodL_init n)
  · intro gK h
    exact LinkedListGenome.run_good hops h (goodK_init n)

/-- Witness for C9: from initial size 3, the sequence `insert_te(0, 2)`,
`copy_te(1, 1)` (whose internal insert collides with and disables id 1),
`disable_te(2)` ends in a state satisfying the storage invariant on both
implementations. -/
theorem C9_lockstep_ring_witness :
    (∀ op ∈ [Op.insert 0 2, Op.copy 1 1, Op.disable 2],
      insertLenPos op = true) ∧
    (ListGenome.init 3).run [Op.insert 0 2, Op.copy 1 1, Op.disable 2] =
      some ⟨['x', 'x', 'x', 'x', '-', '-', '-'], [1, 2, 2, 1, 0, 0, 0], [], 2⟩ ∧
    goodL ⟨['x', 'x', 'x', 'x', '-', '-', '-'], [1, 2, 2, 1, 0, 0, 0], [], 2⟩ ∧
    (LinkedListGenome.init 3).run [Op.insert 0 2, Op.copy 1 1, Op.disable 2] =
      some ⟨['-', '-', '-', 'x', 'x', 'x', 'x'], [3, 2, 0, 5, 1, 6, 4],
        [0, 0, 0, 1, 1, 2, 2], [], 2⟩ ∧
    goodK ⟨['-', '-', '-', 'x', 'x', 'x', 'x'], [3, 2, 0, 5, 1, 6, 4],
      [0, 0, 0, 1, 1, 2, 2], [], 2⟩ := by
  refine ⟨by decide, by decide, ?_, by decide, ?_⟩
  · exact (C9_lockstep_ring [Op.insert 0 2, Op.copy 1 1, Op.disable 2]
      (by decide) 3).1
      ⟨['x', 'x', 'x', 'x', '-', '-', '-'], [1, 2, 2, 1, 0, 0, 0], [], 2⟩
      (by decide)
  · exact (C9_lockstep_ring [Op.insert 0 2, Op.copy 1 1, Op.disable 2]
      (by decide) 3).2
      ⟨['-', '-', '-', 'x', 'x', 'x', 'x'], [3, 2, 0, 5, 1, 6, 4],
        [0, 0, 0, 1, 1, 2, 2], [], 2⟩
      (by decide)
